import Mathlib

/-!
Verification of the retrieval core of the chatbot repository.

The development shallowly embeds the TypeScript source:
* `GeminiService.getEmbedding` (src/unnamed/part_000) — embedding client with
  rate-limit retry; the provider boundary is modelled as a function from the
  input text and attempt number to an outcome, and the 1-second sleeps before
  each retry are counted in the second component of the result.
* `chunkText` (src/unnamed/part_001) — fixed-size overlapping chunker; a JS
  string is modelled as its list of characters, and the for-loop is modelled
  with fuel (the loop always terminates within `text.length` iterations when
  `overlap < chunkSize`, the caller contract).
* `VectorStore` (src/services/vectorStore.ts) — the in-memory index. State is
  the list of stored chunks; `addChunks` is parameterised by the embedding
  outcome per text and an id supply, and returns the new state (or the thrown
  error) together with the list of progress callbacks made and the list of
  texts sent to the embedding provider. Numbers are modelled as reals; the
  ECMAScript stable `Array.prototype.sort` with comparator b.score - a.score
  is modelled by a stable descending insertion sort.
* the source-name deduplication of `ChatInterface.handleSend`
  (src/unnamed/part_002) — `Array.from(new Set(xs))`, which keeps first
  occurrences in insertion order.
-/

/-- JS `String.prototype.includes`: substring containment. -/
def jsIncludes (s sub : String) : Bool :=
  decide (sub.data <:+: s.data)

/-- The literal "429" inspected by the retry logic. -/
def token429 : String := "429"

/-- The literal "rate limit" inspected by the retry logic. -/
def tokenRateLimit : String := "rate limit"

/-- Message of the error thrown when the provider returns no embeddings array
(src/unnamed/part_000 line 27). -/
def noEmbeddingsMsg : String := "No embedding values returned from API"

/-- Message of the aggregate error thrown by `addChunks` when a non-empty batch
yields no embeddings (src/services/vectorStore.ts line 50). -/
def ingestionFailureMsg : String :=
  "Failed to generate embeddings. Please check your network and try again."

/-- Rate-limit detection of src/unnamed/part_000 line 33:
`error.message?.includes('429') || error.message?.includes('rate limit')`. -/
def isRateLimitError (msg : String) : Bool :=
  jsIncludes msg token429 || jsIncludes msg tokenRateLimit

/-- Outcome of one call to the provider boundary `ai.models.embedContent`:
either a response carrying its `embeddings` array (each embedding being its
`values` vector), or a thrown error carrying its message. An absent
`embeddings` field is modelled as the empty array, which the code treats
identically. -/
inductive ApiOutcome where
  | ok (embeddings : List (List ℝ))
  | err (msg : String)

namespace GeminiService

/-- One attempt of `getEmbedding` (src/unnamed/part_000 lines 16-31): call the
provider, convert an absent/empty `embeddings` array into the thrown error, and
otherwise return `response.embeddings[0].values`. `api text attempt` is the
provider outcome for the given input on the given attempt. -/
def attemptEmbed (api : String → ℕ → ApiOutcome) (text : String) (attempt : ℕ) :
    Except String (List ℝ) :=
  match api text attempt with
  | ApiOutcome.err msg => Except.error msg
  | ApiOutcome.ok embeddings =>
    if embeddings.length = 0 then Except.error noEmbeddingsMsg
    else Except.ok (embeddings.headD [])

/-- `GeminiService.getEmbedding` (src/unnamed/part_000 lines 15-41): try an
attempt; on an error whose message carries a rate-limit indicator and with
retry budget left, sleep 1 second and retry the same input with one fewer
retry; otherwise rethrow. The second component counts the 1-second retry
delays performed. -/
def getEmbedding (api : String → ℕ → ApiOutcome) (text : String) :
    ℕ → ℕ → Except String (List ℝ) × ℕ
  | attempt, 0 =>
    (attemptEmbed api text attempt, 0)
  | attempt, retries + 1 =>
    match attemptEmbed api text attempt with
    | Except.ok v => (Except.ok v, 0)
    | Except.error msg =>
      if isRateLimitError msg then
        let r := getEmbedding api text (attempt + 1) retries
        (r.1, r.2 + 1)
      else (Except.error msg, 0)

end GeminiService

/-- The chunker loop of `chunkText` (src/unnamed/part_001 lines 35-38):
starting at offset `i`, push `text.slice(i, i + chunkSize)`, stop if
`i + chunkSize >= text.length`, else advance `i` by `chunkSize - overlap`.
The loop runs at most `text.length` iterations under the caller contract
`overlap < chunkSize`, so the fuel never runs out below. -/
def chunkLoop (text : List Char) (chunkSize overlap : ℕ) : ℕ → ℕ → List (List Char)
  | 0, _ => []
  | fuel + 1, i =>
    if i < text.length then
      ((text.drop i).take chunkSize) ::
        (if text.length ≤ i + chunkSize then []
         else chunkLoop text chunkSize overlap fuel (i + (chunkSize - overlap)))
    else []

/-- `chunkText` (src/unnamed/part_001 lines 29-40). -/
def chunkText (text : List Char) (chunkSize overlap : ℕ) : List (List Char) :=
  if text.isEmpty then [] else chunkLoop text chunkSize overlap (text.length + 1) 0

/-- `DocumentChunk` (src/components/DocumentManager.tsx lines 223-229). The
optional `embedding` mirrors the `embedding?: number[]` field. -/
structure DocumentChunk where
  id : String
  documentId : String
  documentName : String
  text : String
  embedding : Option (List ℝ)

/-- An element of the `chunks` argument of `addChunks`
(`Omit<DocumentChunk, 'id'>` as the callers construct it: document reference,
display name and text, no id and no embedding yet). -/
structure ChunkInput where
  documentId : String
  documentName : String
  text : String

namespace VectorStore

/-- src/services/vectorStore.ts line 14. -/
def BATCH_SIZE : ℕ := 5

/-- The body of the per-chunk promise of `addChunks`
(src/services/vectorStore.ts lines 21-34): embed the chunk text and build the
`DocumentChunk` with a fresh id, or resolve to `null` when the embedding call
throws. `embedFn` is the outcome of `geminiService.getEmbedding` per input
text; `idGen n` models the fresh `crypto.randomUUID()` drawn for the chunk at
global input position `n`. -/
def embedChunk (embedFn : String → Except String (List ℝ)) (idGen : ℕ → String)
    (n : ℕ) (c : ChunkInput) : Option DocumentChunk :=
  match embedFn c.text with
  | Except.ok e =>
      some ⟨idGen n, c.documentId, c.documentName, c.text, some e⟩
  | Except.error _ => none

/-- The batch loop of `addChunks` (src/services/vectorStore.ts lines 17-47):
take the next `BATCH_SIZE` chunks, embed them (survivors keep their input
order), report progress `(min (i + BATCH_SIZE) total, total)`, pause 150ms and
continue with the rest. Returns the accumulated survivors, the progress events
in order, and the texts sent to the embedding provider in order. -/
def addChunksGo (embedFn : String → Except String (List ℝ)) (idGen : ℕ → String)
    (total : ℕ) (i : ℕ) (remaining : List ChunkInput) :
    List DocumentChunk × List (ℕ × ℕ) × List String :=
  match remaining with
  | [] => ([], [], [])
  | c :: cs =>
    let batch := (c :: cs).take BATCH_SIZE
    let results := (List.enumFrom i batch).map fun p => embedChunk embedFn idGen p.1 p.2
    let validResults := results.filterMap id
    let rest := addChunksGo embedFn idGen total (i + BATCH_SIZE) ((c :: cs).drop BATCH_SIZE)
    (validResults ++ rest.1,
     (min (i + BATCH_SIZE) total, total) :: rest.2.1,
     batch.map (fun c => c.text) ++ rest.2.2)
termination_by remaining.length
decreasing_by
  simp only [List.length_drop, List.length_cons, BATCH_SIZE]
  omega

/-- `VectorStore.addChunks` (src/services/vectorStore.ts lines 12-54) as a
state transformer: from the current stored chunks and the input batch, return
either the new state (input survivors appended after the existing chunks) or
the thrown aggregate error, together with the progress events and the texts
sent to the provider. -/
def addChunks (embedFn : String → Except String (List ℝ)) (idGen : ℕ → String)
    (state : List DocumentChunk) (chunks : List ChunkInput) :
    Except String (List DocumentChunk) × List (ℕ × ℕ) × List String :=
  let r := addChunksGo embedFn idGen chunks.length 0 chunks
  if r.1.length = 0 ∧ 0 < chunks.length then
    (Except.error ingestionFailureMsg, r.2.1, r.2.2)
  else
    (Except.ok (state ++ r.1), r.2.1, r.2.2)

/-- The store state after an `addChunks` call: the ok-state on success, the
previous state when the call threw. -/
def stateAfter (state : List DocumentChunk) (r : Except String (List DocumentChunk)) :
    List DocumentChunk :=
  match r with
  | Except.ok s => s
  | Except.error _ => state

/-- `VectorStore.getChunkCount` (src/services/vectorStore.ts lines 97-99). -/
def getChunkCount (state : List DocumentChunk) : ℕ := state.length

/-- `VectorStore.removeDocument` (src/services/vectorStore.ts lines 59-61). -/
def removeDocument (state : List DocumentChunk) (documentId : String) :
    List DocumentChunk :=
  state.filter fun c => c.documentId ≠ documentId

/-- The three accumulators of the `cosineSimilarity` loop
(src/services/vectorStore.ts lines 85-92): `(dotProduct, normA, normB)`. The
loop runs over the indices of `vecA`, reading `vecB` positionally; it is
rendered as simultaneous recursion on the two lists (out-of-range reads
default to 0; all claims concern equal-length vectors, where no default is
ever used). -/
def simAccum : List ℝ → List ℝ → ℝ × ℝ × ℝ
  | [], _ => (0, 0, 0)
  | a :: as, bs =>
    let b := bs.headD 0
    let s := simAccum as bs.tail
    (a * b + s.1, a * a + s.2.1, b * b + s.2.2)

/-- `VectorStore.cosineSimilarity` (src/services/vectorStore.ts lines 84-95):
`dotProduct / (Math.sqrt(normA) * Math.sqrt(normB))`, with the final
`isNaN(similarity) ? 0 : similarity` guard. Over the reals the quotient is NaN
exactly when it is 0/0 (a zero denominator forces a zero numerator here, since
a vector with zero norm is the zero vector), so the guard is rendered as the
explicit 0/0 test. -/
noncomputable def cosineSimilarity (vecA vecB : List ℝ) : ℝ :=
  let s := simAccum vecA vecB
  let similarity := s.1 / (Real.sqrt s.2.1 * Real.sqrt s.2.2)
  if Real.sqrt s.2.1 * Real.sqrt s.2.2 = 0 ∧ s.1 = 0 then 0 else similarity

/-- The score `search` assigns to a stored chunk
(src/services/vectorStore.ts lines 71-75): 0 when the chunk has no embedding,
otherwise the cosine similarity of the query embedding with it. -/
noncomputable def chunkScore (queryEmbedding : List ℝ) (c : DocumentChunk) : ℝ :=
  match c.embedding with
  | none => 0
  | some e => cosineSimilarity queryEmbedding e

/-- Stable descending insertion: place `x` before the first element whose
score does not exceed it. -/
noncomputable def insertDesc (x : DocumentChunk × ℝ) :
    List (DocumentChunk × ℝ) → List (DocumentChunk × ℝ)
  | [] => [x]
  | y :: ys => if y.2 ≤ x.2 then x :: y :: ys else y :: insertDesc x ys

/-- The ECMAScript stable `Array.prototype.sort` under the comparator
`(a, b) => b.score - a.score` (src/services/vectorStore.ts line 79): the
unique reordering that is non-increasing in score and keeps the original
relative order of equal scores, realised as a stable insertion sort. -/
noncomputable def sortByScoreDesc :
    List (DocumentChunk × ℝ) → List (DocumentChunk × ℝ)
  | [] => []
  | x :: xs => insertDesc x (sortByScoreDesc xs)

/-- `VectorStore.search` (src/services/vectorStore.ts lines 66-82). The second
component counts the embedding calls made. -/
noncomputable def search (embedFn : String → Except String (List ℝ))
    (state : List DocumentChunk) (query : String) (k : ℕ) :
    Except String (List DocumentChunk) × ℕ :=
  if state.length = 0 then (Except.ok [], 0)
  else
    match embedFn query with
    | Except.error e => (Except.error e, 1)
    | Except.ok queryEmbedding =>
      let scores := state.map fun c => (c, chunkScore queryEmbedding c)
      (Except.ok (((sortByScoreDesc scores).take k).map Prod.fst), 1)

end VectorStore

namespace ChatInterface

/-- One insertion step of `new Set(xs)` (JS sets keep insertion order and skip
elements already present). -/
def setInsert (seen : List String) (x : String) : List String :=
  if x ∈ seen then seen else seen ++ [x]

/-- `Array.from(new Set(xs))`: the elements of `xs` with duplicates removed,
first occurrences kept in order. -/
def arrayFromSet (xs : List String) : List String :=
  xs.foldl setInsert []

/-- The source-name list of `ChatInterface.handleSend`
(src/unnamed/part_002 line 84):
`Array.from(new Set(relevantChunks.map(c => c.documentName)))`. -/
def sourcesOf (relevantChunks : List DocumentChunk) : List String :=
  arrayFromSet (relevantChunks.map fun c => c.documentName)

end ChatInterface

namespace VectorStore

/-- Whether the embedding call for an input chunk succeeds. -/
def embedOk (embedFn : String → Except String (List ℝ)) (c : ChunkInput) : Bool :=
  match embedFn c.text with
  | Except.ok _ => true
  | Except.error _ => false

/-- The chunks of an input batch that survive embedding, in input order, ids
drawn from the global input position. The batch loop of `addChunks`
accumulates exactly this list. -/
def survivors (embedFn : String → Except String (List ℝ)) (idGen : ℕ → String)
    (i : ℕ) (l : List ChunkInput) : List DocumentChunk :=
  (List.enumFrom i l).filterMap fun p => embedChunk embedFn idGen p.1 p.2

/-- The projection of a stored chunk to the data copied from its input. -/
def chunkData (d : DocumentChunk) : String × String × String :=
  (d.documentId, d.documentName, d.text)

/-- The projection of an input chunk to the data `addChunks` copies. -/
def inputData (c : ChunkInput) : String × String × String :=
  (c.documentId, c.documentName, c.text)

end VectorStore

/-- Coverage reading of a chunk list: the first chunk, followed by every later
chunk with its leading `overlap` characters (shared with its predecessor)
removed. If this reassembles the original text, the chunks cover it and
consecutive chunks agree on their overlap. -/
def reassemble (overlap : ℕ) : List (List Char) → List Char
  | [] => []
  | h :: t => h ++ (t.map (List.drop overlap)).flatten

/-! Concrete fixtures used by the witness theorems. -/

/-- An embedding outcome function whose every call succeeds with vector [1]. -/
def okEmbed : String → Except String (List ℝ) := fun _ => Except.ok [1]

/-- An embedding outcome function whose every call fails. -/
def failEmbed : String → Except String (List ℝ) := fun _ => Except.error noEmbeddingsMsg

/-- A fixed id supply. -/
def uuidSupply : ℕ → String := fun _ => "id-0"

/-- A sample input chunk. -/
def sampleChunk : ChunkInput :=
  { documentId := "d1", documentName := "Doc One", text := "hello world" }

/-- A sample query/input text. -/
def exampleText : String := "what is this about"

/-- A provider error message carrying the rate-limit indicator 429. -/
def msg429 : String := "HTTP 429 Too Many Requests"

/-- A provider error message with no rate-limit indicator. -/
def msgBoring : String := "Internal Server Error"

/-- A provider that is rate-limited on attempt 0 and succeeds from attempt 1. -/
def apiRateLimitedOnce : String → ℕ → ApiOutcome :=
  fun _ n => if n = 0 then ApiOutcome.err msg429 else ApiOutcome.ok [[1]]

/-- A provider that always fails with a rate-limit error. -/
def apiAlways429 : String → ℕ → ApiOutcome := fun _ _ => ApiOutcome.err msg429

/-- A provider that always fails with a non-rate-limit error. -/
def apiBoringError : String → ℕ → ApiOutcome := fun _ _ => ApiOutcome.err msgBoring

/-- A provider that always succeeds with the embedding vector [1]. -/
def apiAlwaysOk : String → ℕ → ApiOutcome := fun _ _ => ApiOutcome.ok [[1]]

/-- A provider that returns a non-empty embeddings array whose first embedding
has an empty values vector. -/
def apiEmptyValues : String → ℕ → ApiOutcome := fun _ _ => ApiOutcome.ok [[]]

/-- A provider that returns an empty embeddings array. -/
def apiNoEmbeddings : String → ℕ → ApiOutcome := fun _ _ => ApiOutcome.ok []

namespace VectorStore

theorem survivors_nil (f : String → Except String (List ℝ)) (g : ℕ → String)
    (i : ℕ) : survivors f g i [] = [] := rfl

theorem survivors_cons (f : String → Except String (List ℝ)) (g : ℕ → String)
    (i : ℕ) (c : ChunkInput) (cs : List ChunkInput) :
    survivors f g i (c :: cs) =
      (match embedChunk f g i c with
       | some d => d :: survivors f g (i + 1) cs
       | none => survivors f g (i + 1) cs) := by
  simp only [survivors, List.enumFrom]
  rw [List.filterMap]
  cases embedChunk f g i c <;> rfl

theorem survivors_split (f : String → Except String (List ℝ)) (g : ℕ → String)
    (i n : ℕ) (l : List ChunkInput) :
    survivors f g i l = survivors f g i (l.take n) ++ survivors f g (i + n) (l.drop n) := by
  rcases le_or_lt l.length n with h | h
  · rw [List.take_of_length_le h, List.drop_eq_nil_of_le h, survivors_nil, List.append_nil]
  · simp only [survivors]
    conv_lhs => rw [← List.take_append_drop n l]
    rw [List.enumFrom_append, List.filterMap_append, List.length_take,
      Nat.min_eq_left (Nat.le_of_lt h)]

theorem survivors_length (f : String → Except String (List ℝ)) (g : ℕ → String) :
    ∀ (l : List ChunkInput) (i : ℕ), (survivors f g i l).length = l.countP (embedOk f)
  | [], _ => rfl
  | c :: cs, i => by
    rw [survivors_cons, List.countP_cons]
    cases hfc : f c.text with
    | ok e => simp [embedChunk, embedOk, hfc, survivors_length f g cs (i + 1)]
    | error e => simp [embedChunk, embedOk, hfc, survivors_length f g cs (i + 1)]

theorem survivors_data (f : String → Except String (List ℝ)) (g : ℕ → String) :
    ∀ (l : List ChunkInput) (i : ℕ),
      (survivors f g i l).map chunkData = (l.filter (embedOk f)).map inputData
  | [], _ => rfl
  | c :: cs, i => by
    rw [survivors_cons, List.filter_cons]
    cases hfc : f c.text with
    | ok e =>
      simp only [embedChunk, embedOk, hfc, List.map_cons, survivors_data f g cs (i + 1)]
      simp [chunkData, inputData]
    | error e => simp [embedChunk, embedOk, hfc, survivors_data f g cs (i + 1)]

theorem survivors_eq_nil_of_all_fail (f : String → Except String (List ℝ))
    (g : ℕ → String) (l : List ChunkInput) (i : ℕ)
    (h : ∀ c ∈ l, embedOk f c = false) : survivors f g i l = [] := by
  rw [← List.length_eq_zero, survivors_length]
  rw [List.countP_eq_zero]
  intro c hc
  simp [h c hc]

theorem addChunksGo_nil (f : String → Except String (List ℝ)) (g : ℕ → String)
    (total i : ℕ) : addChunksGo f g total i [] = ([], [], []) := by
  rw [addChunksGo]

theorem addChunksGo_cons (f : String → Except String (List ℝ)) (g : ℕ → String)
    (total i : ℕ) (c : ChunkInput) (cs : List ChunkInput) :
    addChunksGo f g total i (c :: cs) =
      (((List.enumFrom i ((c :: cs).take BATCH_SIZE)).map
          fun p => embedChunk f g p.1 p.2).filterMap id ++
         (addChunksGo f g total (i + BATCH_SIZE) ((c :: cs).drop BATCH_SIZE)).1,
       (min (i + BATCH_SIZE) total, total) ::
         (addChunksGo f g total (i + BATCH_SIZE) ((c :: cs).drop BATCH_SIZE)).2.1,
       ((c :: cs).take BATCH_SIZE).map (fun x => x.text) ++
         (addChunksGo f g total (i + BATCH_SIZE) ((c :: cs).drop BATCH_SIZE)).2.2) := by
  rw [addChunksGo]

theorem addChunksGo_fst (f : String → Except String (List ℝ)) (g : ℕ → String) :
    ∀ (n : ℕ) (remaining : List ChunkInput), remaining.length ≤ n → ∀ (total i : ℕ),
      (addChunksGo f g total i remaining).1 = survivors f g i remaining := by
  intro n
  induction n with
  | zero =>
    intro remaining h total i
    rw [List.length_eq_zero.mp (Nat.le_zero.mp h), addChunksGo_nil]
    rfl
  | succ m ih =>
    intro remaining h total i
    match remaining with
    | [] => rw [addChunksGo_nil]; rfl
    | c :: cs =>
      rw [addChunksGo_cons]
      simp only
      rw [ih ((c :: cs).drop BATCH_SIZE)
        (by simp only [List.length_drop, List.length_cons, BATCH_SIZE]
            simp only [List.length_cons] at h
            omega) total (i + BATCH_SIZE)]
      rw [survivors_split f g i BATCH_SIZE (c :: cs)]
      congr 1
      rw [List.filterMap_map]
      rfl


/-- C1: for every non-empty input batch in which every chunk's embedding call
fails, `addChunks` throws the aggregate ingestion-failure error and the index
state is unchanged: the chunk count after the call equals the count before. -/
theorem c1_addChunks_total_failure_atomic (f : String → Except String (List ℝ))
    (g : ℕ → String) (state : List DocumentChunk) (chunks : List ChunkInput)
    (hne : chunks ≠ []) (hfail : ∀ c ∈ chunks, embedOk f c = false) :
    (addChunks f g state chunks).1 = Except.error ingestionFailureMsg ∧
    getChunkCount (stateAfter state (addChunks f g state chunks).1) =
      getChunkCount state := by
  have hfst : (addChunksGo f g chunks.length 0 chunks).1 = [] := by
    rw [addChunksGo_fst f g chunks.length chunks le_rfl]
    exact survivors_eq_nil_of_all_fail f g chunks 0 hfail
  have hcond : (addChunksGo f g chunks.length 0 chunks).1.length = 0 ∧
      0 < chunks.length := ⟨by rw [hfst]; rfl, List.length_pos.mpr hne⟩
  have hres : (addChunks f g state chunks).1 = Except.error ingestionFailureMsg := by
    simp only [addChunks, if_pos hcond]
  exact ⟨hres, by rw [hres]; rfl⟩

/-- Witness for C1: a singleton batch whose only embedding call fails. -/
theorem c1_witness :
    (addChunks failEmbed uuidSupply [] [sampleChunk]).1 =
      Except.error ingestionFailureMsg ∧
    getChunkCount (stateAfter [] (addChunks failEmbed uuidSupply [] [sampleChunk]).1) =
      getChunkCount ([] : List DocumentChunk) :=
  c1_addChunks_total_failure_atomic failEmbed uuidSupply [] [sampleChunk]
    (by simp) (by intro c _; rfl)

/-- C2: for every input batch in which at least one chunk's embedding call
succeeds, `addChunks` returns normally, the surviving chunks (exactly those
whose embedding succeeded, in their original input order) are appended to the
index, and the chunk count grows by exactly the number of successes. -/
theorem c2_addChunks_partial_failure (f : String → Except String (List ℝ))
    (g : ℕ → String) (state : List DocumentChunk) (chunks : List ChunkInput)
    (hsucc : ∃ c ∈ chunks, embedOk f c = true) :
    (addChunks f g state chunks).1 = Except.ok (state ++ survivors f g 0 chunks) ∧
    getChunkCount (stateAfter state (addChunks f g state chunks).1) =
      getChunkCount state + chunks.countP (embedOk f) ∧
    (survivors f g 0 chunks).map chunkData =
      (chunks.filter (embedOk f)).map inputData := by
  have hlen : (survivors f g 0 chunks).length = chunks.countP (embedOk f) :=
    survivors_length f g chunks 0
  have hpos : 0 < chunks.countP (embedOk f) := by
    rw [List.countP_pos_iff]
    simpa using hsucc
  have hfst : (addChunksGo f g chunks.length 0 chunks).1 = survivors f g 0 chunks :=
    addChunksGo_fst f g chunks.length chunks le_rfl chunks.length 0
  have hcond : ¬((addChunksGo f g chunks.length 0 chunks).1.length = 0 ∧
      0 < chunks.length) := by
    intro hc
    rw [hfst, hlen] at hc
    omega
  have hres : (addChunks f g state chunks).1 =
      Except.ok (state ++ survivors f g 0 chunks) := by
    simp only [addChunks, if_neg hcond]
    rw [hfst]
  refine ⟨hres, ?_, survivors_data f g chunks 0⟩
  rw [hres]
  simp [stateAfter, getChunkCount, hlen]

/-- Witness for C2: a singleton batch whose only embedding call succeeds. -/
theorem c2_witness :
    (addChunks okEmbed uuidSupply [] [sampleChunk]).1 =
      Except.ok ([] ++ survivors okEmbed uuidSupply 0 [sampleChunk]) :=
  (c2_addChunks_partial_failure okEmbed uuidSupply [] [sampleChunk]
    ⟨sampleChunk, by simp, rfl⟩).1

/-- C3: for every query and every k, `search` on an empty index returns the
empty list and performs zero embedding calls. -/
theorem c3_search_empty_index (f : String → Except String (List ℝ))
    (state : List DocumentChunk) (query : String) (k : ℕ)
    (h : getChunkCount state = 0) :
    search f state query k = (Except.ok [], 0) := by
  have hl : state.length = 0 := h
  simp [search, hl]

/-- Witness for C3: searching an empty store. -/
theorem c3_witness : search okEmbed [] exampleText 3 = (Except.ok [], 0) :=
  c3_search_empty_index okEmbed [] exampleText 3 rfl

/-- C10: `addChunks` on the empty input batch is a no-op: it returns the state
unchanged without error, makes no progress callback and no embedding call. -/
theorem c10_addChunks_empty_batch_noop (f : String → Except String (List ℝ))
    (g : ℕ → String) (state : List DocumentChunk) :
    addChunks f g state [] = (Except.ok state, [], []) := by
  simp [addChunks, addChunksGo_nil]

end VectorStore

namespace GeminiService

theorem attemptEmbed_ok (api : String → ℕ → ApiOutcome) (text : String)
    (attempt : ℕ) (v : List ℝ) (h : attemptEmbed api text attempt = Except.ok v) :
    ∃ embs, api text attempt = ApiOutcome.ok embs ∧ 0 < embs.length ∧
      v = embs.headD [] := by
  unfold attemptEmbed at h
  cases ha : api text attempt with
  | err m => simp [ha] at h
  | ok embs =>
    simp only [ha] at h
    by_cases hl : embs.length = 0
    · rw [if_pos hl] at h; exact absurd h (by simp)
    · rw [if_neg hl] at h
      refine ⟨embs, rfl, Nat.pos_of_ne_zero hl, ?_⟩
      injection h with h2
      exact h2.symm

/-- C6: rate-limit retry policy of `getEmbedding` with the default budget of 2
extra attempts. (i) A rate-limit failure on the first attempt followed by a
successful attempt yields overall success with exactly one 1-second retry
delay. (ii) A non-rate-limit error on the first attempt propagates immediately
with no delay. (iii) Three consecutive failures, the first two carrying a
rate-limit indicator, exhaust the budget: the last error propagates after
exactly two retry delays. -/
theorem c6_rate_limit_retry_policy :
    (∀ (api : String → ℕ → ApiOutcome) (text msg : String) (embs : List (List ℝ)),
       isRateLimitError msg = true →
       api text 0 = ApiOutcome.err msg →
       api text 1 = ApiOutcome.ok embs → embs.length ≠ 0 →
       getEmbedding api text 0 2 = (Except.ok (embs.headD []), 1)) ∧
    (∀ (api : String → ℕ → ApiOutcome) (text msg : String),
       isRateLimitError msg = false →
       api text 0 = ApiOutcome.err msg →
       getEmbedding api text 0 2 = (Except.error msg, 0)) ∧
    (∀ (api : String → ℕ → ApiOutcome) (text msg0 msg1 msg2 : String),
       isRateLimitError msg0 = true → isRateLimitError msg1 = true →
       api text 0 = ApiOutcome.err msg0 →
       api text 1 = ApiOutcome.err msg1 →
       api text 2 = ApiOutcome.err msg2 →
       getEmbedding api text 0 2 = (Except.error msg2, 2)) := by
  refine ⟨?_, ?_, ?_⟩
  · intro api text msg embs hrl h0 h1 hne
    simp [getEmbedding, attemptEmbed, h0, h1, hrl, hne]
  · intro api text msg hrl h0
    simp [getEmbedding, attemptEmbed, h0, hrl]
  · intro api text msg0 msg1 msg2 hrl0 hrl1 h0 h1 h2
    simp [getEmbedding, attemptEmbed, h0, h1, h2, hrl0, hrl1]

/-- Witness for C6: the three retry-policy clauses at concrete providers. -/
theorem c6_witness :
    getEmbedding apiRateLimitedOnce exampleText 0 2 =
      (Except.ok (([[(1 : ℝ)]]).headD []), 1) ∧
    getEmbedding apiBoringError exampleText 0 2 = (Except.error msgBoring, 0) ∧
    getEmbedding apiAlways429 exampleText 0 2 = (Except.error msg429, 2) :=
  ⟨c6_rate_limit_retry_policy.1 apiRateLimitedOnce exampleText msg429 [[1]]
      (by decide) rfl rfl (by decide),
   c6_rate_limit_retry_policy.2.1 apiBoringError exampleText msgBoring
      (by decide) rfl,
   c6_rate_limit_retry_policy.2.2 apiAlways429 exampleText msg429 msg429 msg429
      (by decide) (by decide) rfl rfl rfl⟩

/-- C7 counterexample: the claim that every successfully returned embedding has
at least one component is false: a provider response whose embeddings array is
non-empty but whose first embedding has zero values makes `getEmbedding`
return the empty vector successfully. -/
theorem c7_counterexample :
    ¬ ∀ (api : String → ℕ → ApiOutcome) (text : String) (v : List ℝ),
        (getEmbedding api text 0 2).1 = Except.ok v → 0 < v.length := by
  intro h
  exact absurd (h apiEmptyValues exampleText [] rfl) (by decide)

/-- C7 (amended): a successful `getEmbedding` result always comes from an
attempt whose embeddings array was non-empty, and is that array's first
embedding; an empty or absent embeddings array is converted to an error whose
message carries no rate-limit indicator, so it propagates without retry. The
code does not validate the first embedding itself, which may be empty. -/
theorem c7_empty_embeddings_array_is_failure :
    (∀ (api : String → ℕ → ApiOutcome) (text : String) (retries attempt : ℕ)
       (v : List ℝ), (getEmbedding api text attempt retries).1 = Except.ok v →
       ∃ i embs, attempt ≤ i ∧ i ≤ attempt + retries ∧
         api text i = ApiOutcome.ok embs ∧ 0 < embs.length ∧ v = embs.headD []) ∧
    (∀ (api : String → ℕ → ApiOutcome) (text : String) (attempt retries : ℕ),
       api text attempt = ApiOutcome.ok [] →
       getEmbedding api text attempt retries = (Except.error noEmbeddingsMsg, 0)) := by
  constructor
  · intro api text retries
    induction retries with
    | zero =>
      intro attempt v hv
      have h1 : attemptEmbed api text attempt = Except.ok v := by
        simpa [getEmbedding] using hv
      obtain ⟨embs, ha, hpos, hv'⟩ := attemptEmbed_ok api text attempt v h1
      exact ⟨attempt, embs, le_rfl, Nat.le_add_right _ _, ha, hpos, hv'⟩
    | succ r ih =>
      intro attempt v hv
      rw [getEmbedding] at hv
      cases hatt : attemptEmbed api text attempt with
      | ok w =>
        simp only [hatt] at hv
        obtain ⟨embs, ha, hpos, hv'⟩ := attemptEmbed_ok api text attempt w hatt
        refine ⟨attempt, embs, le_rfl, Nat.le_add_right _ _, ha, hpos, ?_⟩
        injection hv with hv2
        rw [← hv2]
        exact hv'
      | error msg =>
        by_cases hrl : isRateLimitError msg
        · simp only [hatt, hrl, if_true] at hv
          obtain ⟨i, embs, hi1, hi2, ha, hpos, hv'⟩ := ih (attempt + 1) v hv
          exact ⟨i, embs, by omega, by omega, ha, hpos, hv'⟩
        · simp [hatt, hrl] at hv
  · intro api text attempt retries h
    cases retries with
    | zero => simp [getEmbedding, attemptEmbed, h]
    | succ r =>
      have hnr : isRateLimitError noEmbeddingsMsg = false := by decide
      simp [getEmbedding, attemptEmbed, h, hnr]

/-- Witness for C7 (amended): a provider that always succeeds with a singleton
embeddings array, and one whose embeddings array is empty. -/
theorem c7_amended_witness :
    (∃ i embs, 0 ≤ i ∧ i ≤ 0 + 2 ∧
       apiAlwaysOk exampleText i = ApiOutcome.ok embs ∧ 0 < embs.length ∧
       [(1 : ℝ)] = embs.headD []) ∧
    getEmbedding apiNoEmbeddings exampleText 0 2 =
      (Except.error noEmbeddingsMsg, 0) :=
  ⟨c7_empty_embeddings_array_is_failure.1 apiAlwaysOk exampleText 2 0 [1] rfl,
   c7_empty_embeddings_array_is_failure.2 apiNoEmbeddings exampleText 0 2 rfl⟩

end GeminiService

namespace ChatInterface

theorem arrayFromSet_go (names : List String) :
    ∀ (suffix pfx acc : List String), names = pfx ++ suffix →
      (∀ y, y ∈ acc ↔ y ∈ pfx) →
      acc.Nodup →
      acc.Pairwise (fun a b => names.indexOf a < names.indexOf b) →
      (∀ y ∈ acc, names.indexOf y < pfx.length) →
      (∀ y, y ∈ suffix.foldl setInsert acc ↔ y ∈ names) ∧
      (suffix.foldl setInsert acc).Nodup ∧
      (suffix.foldl setInsert acc).Pairwise
        (fun a b => names.indexOf a < names.indexOf b) := by
  intro suffix
  induction suffix with
  | nil =>
    intro pfx acc hsplit hmem hnd hpw _
    subst hsplit
    simp only [List.foldl_nil, List.append_nil] at hpw hmem ⊢
    exact ⟨hmem, hnd, hpw⟩
  | cons x rest ih =>
    intro pfx acc hsplit hmem hnd hpw hbound
    rw [List.foldl_cons]
    by_cases hx : x ∈ acc
    · have hxp : x ∈ pfx := (hmem x).mp hx
      have hins : setInsert acc x = acc := if_pos hx
      rw [hins]
      refine ih (pfx ++ [x]) acc (by rw [hsplit]; simp) ?_ hnd hpw ?_
      · intro y
        rw [hmem y]
        constructor
        · intro h; exact List.mem_append_left _ h
        · intro h
          rcases List.mem_append.mp h with h | h
          · exact h
          · rw [List.mem_singleton.mp h]; exact hxp
      · intro y hy
        have := hbound y hy
        simp only [List.length_append, List.length_singleton]
        omega
    · have hxp : x ∉ pfx := fun hc => hx ((hmem x).mpr hc)
      have hins : setInsert acc x = acc ++ [x] := if_neg hx
      rw [hins]
      have hidx : names.indexOf x = pfx.length := by
        rw [hsplit, List.indexOf_append_of_not_mem hxp]
        simp
      refine ih (pfx ++ [x]) (acc ++ [x]) (by rw [hsplit]; simp) ?_ ?_ ?_ ?_
      · intro y
        simp only [List.mem_append, List.mem_singleton]
        rw [hmem y]
      · rw [List.nodup_append]
        refine ⟨hnd, List.nodup_singleton x, ?_⟩
        intro a ha hb
        rw [List.mem_singleton.mp hb] at ha
        exact hx ha
      · rw [List.pairwise_append]
        refine ⟨hpw, List.pairwise_singleton _ _, ?_⟩
        intro a ha b hb
        rw [List.mem_singleton.mp hb, hidx]
        exact hbound a ha
      · intro y hy
        simp only [List.length_append, List.length_singleton]
        rcases List.mem_append.mp hy with h | h
        · have := hbound y h
          omega
        · rw [List.mem_singleton.mp h, hidx]
          omega

theorem arrayFromSet_spec (xs : List String) :
    (∀ y, y ∈ arrayFromSet xs ↔ y ∈ xs) ∧ (arrayFromSet xs).Nodup ∧
    (arrayFromSet xs).Pairwise (fun a b => xs.indexOf a < xs.indexOf b) := by
  have h := arrayFromSet_go xs xs [] [] rfl (by simp) List.nodup_nil
    List.Pairwise.nil (by simp)
  exact h

/-- C9: the source-name list built by `handleSend` contains each distinct
`documentName` of the retrieved chunks exactly once and lists them in order of
first occurrence: the count of every name present is 1 (0 if absent), and the
positions of first occurrence are strictly increasing along the list. -/
theorem c9_sources_dedup_first_seen (chunks : List DocumentChunk) :
    (∀ s, (sourcesOf chunks).count s =
       if s ∈ chunks.map (fun c => c.documentName) then 1 else 0) ∧
    (sourcesOf chunks).Pairwise (fun a b =>
       (chunks.map (fun c => c.documentName)).indexOf a <
       (chunks.map (fun c => c.documentName)).indexOf b) := by
  obtain ⟨hmem, hnd, hpw⟩ := arrayFromSet_spec (chunks.map fun c => c.documentName)
  refine ⟨?_, hpw⟩
  intro s
  by_cases hs : s ∈ chunks.map (fun c => c.documentName)
  · rw [if_pos hs]
    exact List.count_eq_one_of_mem hnd ((hmem s).mpr hs)
  · rw [if_neg hs]
    exact List.count_eq_zero_of_not_mem (fun hc => hs ((hmem s).mp hc))

end ChatInterface

namespace VectorStore

theorem simAccum_swap : ∀ (a b : List ℝ), a.length = b.length →
    simAccum b a = ((simAccum a b).1, (simAccum a b).2.2, (simAccum a b).2.1)
  | [], [], _ => rfl
  | [], _ :: _, h => by simp at h
  | _ :: _, [], h => by simp at h
  | x :: xs, y :: ys, h => by
    have hh : xs.length = ys.length := by simpa using h
    have ih := simAccum_swap xs ys hh
    simp only [simAccum, List.headD_cons, List.tail_cons, ih]
    rw [mul_comm y x]

theorem simAccum_self (a : List ℝ) :
    (simAccum a a).2.1 = (simAccum a a).1 ∧ (simAccum a a).2.2 = (simAccum a a).1 := by
  induction a with
  | nil => exact ⟨rfl, rfl⟩
  | cons x xs ih =>
    simp only [simAccum, List.headD_cons, List.tail_cons]
    exact ⟨by rw [ih.1], by rw [ih.2]⟩

theorem simAccum_normA_nonneg : ∀ (a b : List ℝ), 0 ≤ (simAccum a b).2.1
  | [], _ => le_rfl
  | x :: xs, bs => by
    simp only [simAccum]
    have h1 : 0 ≤ x * x := mul_self_nonneg x
    have h2 : 0 ≤ (simAccum xs bs.tail).2.1 := simAccum_normA_nonneg xs bs.tail
    linarith

theorem simAccum_normB_nonneg : ∀ (a b : List ℝ), 0 ≤ (simAccum a b).2.2
  | [], _ => le_rfl
  | x :: xs, bs => by
    simp only [simAccum]
    have h1 : 0 ≤ bs.headD 0 * bs.headD 0 := mul_self_nonneg _
    have h2 : 0 ≤ (simAccum xs bs.tail).2.2 := simAccum_normB_nonneg xs bs.tail
    linarith

theorem simAccum_dot_eq_zero_of_normA : ∀ (a b : List ℝ),
    (simAccum a b).2.1 = 0 → (simAccum a b).1 = 0
  | [], _, _ => rfl
  | x :: xs, bs, h => by
    simp only [simAccum] at h ⊢
    have h1 : 0 ≤ x * x := mul_self_nonneg x
    have h2 : 0 ≤ (simAccum xs bs.tail).2.1 := simAccum_normA_nonneg xs bs.tail
    have hx : x * x = 0 := by linarith
    have hrest : (simAccum xs bs.tail).2.1 = 0 := by linarith
    have hx0 : x = 0 := by
      by_contra hc
      exact absurd hx (ne_of_gt (mul_self_pos.mpr hc))
    rw [hx0, simAccum_dot_eq_zero_of_normA xs bs.tail hrest]
    ring

theorem simAccum_dot_eq_zero_of_normB : ∀ (a b : List ℝ),
    (simAccum a b).2.2 = 0 → (simAccum a b).1 = 0
  | [], _, _ => rfl
  | x :: xs, bs, h => by
    simp only [simAccum] at h ⊢
    have h1 : 0 ≤ bs.headD 0 * bs.headD 0 := mul_self_nonneg _
    have h2 : 0 ≤ (simAccum xs bs.tail).2.2 := simAccum_normB_nonneg xs bs.tail
    have hx : bs.headD 0 * bs.headD 0 = 0 := by linarith
    have hrest : (simAccum xs bs.tail).2.2 = 0 := by linarith
    have hx0 : bs.headD 0 = 0 := by
      by_contra hc
      exact absurd hx (ne_of_gt (mul_self_pos.mpr hc))
    rw [hx0, simAccum_dot_eq_zero_of_normB xs bs.tail hrest]
    ring

theorem simAccum_normA_pos : ∀ (a b : List ℝ), (∃ x ∈ a, x ≠ 0) →
    0 < (simAccum a b).2.1
  | [], _, h => by simp at h
  | x :: xs, bs, h => by
    simp only [simAccum]
    rcases h with ⟨y, hy, hy0⟩
    rcases List.mem_cons.mp hy with rfl | hmem
    · have h2 : 0 ≤ (simAccum xs bs.tail).2.1 := simAccum_normA_nonneg xs bs.tail
      have := mul_self_pos.mpr hy0
      linarith
    · have h1 : 0 ≤ x * x := mul_self_nonneg x
      have := simAccum_normA_pos xs bs.tail ⟨y, hmem, hy0⟩
      linarith

theorem simAccum_normA_zero : ∀ (a b : List ℝ), (∀ x ∈ a, x = 0) →
    (simAccum a b).2.1 = 0
  | [], _, _ => rfl
  | x :: xs, bs, h => by
    simp only [simAccum]
    rw [h x (List.mem_cons_self x xs),
      simAccum_normA_zero xs bs.tail (fun y hy => h y (List.mem_cons_of_mem x hy))]
    ring

theorem simAccum_normB_zero : ∀ (a b : List ℝ), (∀ x ∈ b, x = 0) →
    (simAccum a b).2.2 = 0
  | [], _, _ => rfl
  | x :: xs, bs, h => by
    simp only [simAccum]
    have hh : bs.headD 0 = 0 := by
      cases bs with
      | nil => rfl
      | cons y ys => exact h y (List.mem_cons_self y ys)
    have ht : ∀ y ∈ bs.tail, y = 0 := by
      intro y hy
      exact h y (List.mem_of_mem_tail hy)
    rw [hh, simAccum_normB_zero xs bs.tail ht]
    ring

theorem cosineSimilarity_zero_of_denom (a b : List ℝ)
    (hd : Real.sqrt (simAccum a b).2.1 * Real.sqrt (simAccum a b).2.2 = 0) :
    cosineSimilarity a b = 0 := by
  have hz : (simAccum a b).1 = 0 := by
    rcases mul_eq_zero.mp hd with h | h
    · exact simAccum_dot_eq_zero_of_normA a b
        (le_antisymm (Real.sqrt_eq_zero'.mp h) (simAccum_normA_nonneg a b))
    · exact simAccum_dot_eq_zero_of_normB a b
        (le_antisymm (Real.sqrt_eq_zero'.mp h) (simAccum_normB_nonneg a b))
  simp only [cosineSimilarity]
  rw [if_pos ⟨hd, hz⟩]

/-- C8: properties of the cosine similarity as computed by the index. For
equal-length vectors it is symmetric; it is 1 on any nonzero vector paired
with itself; it is 0 when either vector is the zero vector; and it is 0
whenever the quotient would not be a real number (the denominator of the
quotient vanishes, the real rendering of the NaN guard). -/
theorem c8_cosine_similarity_properties :
    (∀ a b : List ℝ, a.length = b.length →
       cosineSimilarity a b = cosineSimilarity b a) ∧
    (∀ a : List ℝ, (∃ x ∈ a, x ≠ 0) → cosineSimilarity a a = 1) ∧
    (∀ a b : List ℝ, a.length = b.length →
       ((∀ x ∈ a, x = 0) ∨ (∀ x ∈ b, x = 0)) → cosineSimilarity a b = 0) ∧
    (∀ a b : List ℝ,
       Real.sqrt (simAccum a b).2.1 * Real.sqrt (simAccum a b).2.2 = 0 →
       cosineSimilarity a b = 0) := by
  refine ⟨?_, ?_, ?_, cosineSimilarity_zero_of_denom⟩
  · intro a b h
    simp only [cosineSimilarity]
    rw [simAccum_swap a b h]
    simp only
    rw [mul_comm (Real.sqrt (simAccum a b).2.2) (Real.sqrt (simAccum a b).2.1)]
  · intro a ha
    have h1 := (simAccum_self a).1
    have h2 := (simAccum_self a).2
    have hpos : 0 < (simAccum a a).1 := by
      have := simAccum_normA_pos a a ha
      rw [h1] at this
      exact this
    simp only [cosineSimilarity]
    rw [h1, h2, Real.mul_self_sqrt (le_of_lt hpos)]
    rw [if_neg (by intro hc; exact absurd hc.2 (ne_of_gt hpos))]
    exact div_self (ne_of_gt hpos)
  · intro a b _ hz
    apply cosineSimilarity_zero_of_denom
    rcases hz with h | h
    · rw [simAccum_normA_zero a b h, Real.sqrt_zero, zero_mul]
    · rw [simAccum_normB_zero a b h, Real.sqrt_zero, mul_zero]

/-- Witness for C8: the four clauses at concrete vectors. -/
theorem c8_witness :
    cosineSimilarity [(1 : ℝ), 2] [3, 4] = cosineSimilarity [(3 : ℝ), 4] [1, 2] ∧
    cosineSimilarity [(1 : ℝ), 0] [1, 0] = 1 ∧
    cosineSimilarity [(0 : ℝ), 0] [3, 4] = 0 ∧
    cosineSimilarity ([] : List ℝ) [] = 0 :=
  ⟨c8_cosine_similarity_properties.1 [1, 2] [3, 4] rfl,
   c8_cosine_similarity_properties.2.1 [1, 0] ⟨1, by simp, one_ne_zero⟩,
   c8_cosine_similarity_properties.2.2.1 [0, 0] [3, 4] rfl
     (Or.inl (by intro x hx; fin_cases hx <;> rfl)),
   c8_cosine_similarity_properties.2.2.2 [] []
     (by simp [simAccum])⟩

end VectorStore

namespace VectorStore

theorem mem_insertDesc (x z : DocumentChunk × ℝ) :
    ∀ l, z ∈ insertDesc x l ↔ z = x ∨ z ∈ l
  | [] => by simp [insertDesc]
  | y :: ys => by
    by_cases hxy : y.2 ≤ x.2
    · simp only [insertDesc, if_pos hxy]
      simp [List.mem_cons]
    · simp only [insertDesc, if_neg hxy]
      simp only [List.mem_cons, mem_insertDesc x z ys]
      tauto

theorem pairwise_insertDesc (x : DocumentChunk × ℝ) :
    ∀ l, l.Pairwise (fun a b => b.2 ≤ a.2) →
      (insertDesc x l).Pairwise (fun a b => b.2 ≤ a.2)
  | [], _ => List.pairwise_singleton _ _
  | y :: ys, h => by
    rcases List.pairwise_cons.mp h with ⟨hy, hys⟩
    by_cases hxy : y.2 ≤ x.2
    · simp only [insertDesc, if_pos hxy]
      refine List.pairwise_cons.mpr ⟨?_, h⟩
      intro z hz
      rcases List.mem_cons.mp hz with rfl | hz'
      · exact hxy
      · exact le_trans (hy z hz') hxy
    · simp only [insertDesc, if_neg hxy]
      refine List.pairwise_cons.mpr ⟨?_, pairwise_insertDesc x ys hys⟩
      intro z hz
      rcases (mem_insertDesc x z ys).mp hz with rfl | hz'
      · exact le_of_lt (not_le.mp hxy)
      · exact hy z hz'

theorem pairwise_sortByScoreDesc :
    ∀ l, (sortByScoreDesc l).Pairwise (fun a b => b.2 ≤ a.2)
  | [] => List.Pairwise.nil
  | x :: xs => pairwise_insertDesc x _ (pairwise_sortByScoreDesc xs)

theorem mem_sortByScoreDesc (z : DocumentChunk × ℝ) :
    ∀ l, z ∈ sortByScoreDesc l ↔ z ∈ l
  | [] => Iff.rfl
  | x :: xs => by
    simp only [sortByScoreDesc]
    rw [mem_insertDesc x z (sortByScoreDesc xs), mem_sortByScoreDesc z xs,
      List.mem_cons]

theorem filter_insertDesc (s : ℝ) (x : DocumentChunk × ℝ) :
    ∀ l, (insertDesc x l).filter (fun p => decide (p.2 = s)) =
      ((x :: l).filter (fun p => decide (p.2 = s)))
  | [] => rfl
  | y :: ys => by
    by_cases hxy : y.2 ≤ x.2
    · simp only [insertDesc, if_pos hxy]
    · have hlt : x.2 < y.2 := not_le.mp hxy
      simp only [insertDesc, if_neg hxy]
      by_cases hx : x.2 = s
      · have hy : ¬(y.2 = s) := fun hc => absurd (hx.trans hc.symm) (ne_of_lt hlt)
        simp [List.filter_cons, hx, hy, filter_insertDesc s x ys]
      · by_cases hy : y.2 = s
        · simp [List.filter_cons, hx, hy, filter_insertDesc s x ys]
        · simp [List.filter_cons, hx, hy, filter_insertDesc s x ys]

theorem filter_sortByScoreDesc (s : ℝ) :
    ∀ l, (sortByScoreDesc l).filter (fun p => decide (p.2 = s)) =
      l.filter (fun p => decide (p.2 = s))
  | [] => rfl
  | x :: xs => by
    simp only [sortByScoreDesc]
    rw [filter_insertDesc s x (sortByScoreDesc xs)]
    simp only [List.filter_cons, filter_sortByScoreDesc s xs]

/-- C4: for every index state and every k, a successful `search` returns at
most k entries, pairwise ordered by non-increasing score (the cosine
similarity the code assigns each stored chunk against the query embedding),
and it is stable: for every score value, the returned entries with that score
are an initial segment of the stored entries with that score, in their
original insertion order. -/
theorem c4_search_topk_sorted_stable (f : String → Except String (List ℝ))
    (state : List DocumentChunk) (query : String) (k : ℕ) (qe : List ℝ)
    (hq : f query = Except.ok qe) :
    ∃ res : List DocumentChunk,
      (search f state query k).1 = Except.ok res ∧
      res.length ≤ k ∧
      res.Pairwise (fun a b => chunkScore qe b ≤ chunkScore qe a) ∧
      ∀ s : ℝ, ∃ t, state.filter (fun c => decide (chunkScore qe c = s)) =
        res.filter (fun c => decide (chunkScore qe c = s)) ++ t := by
  by_cases hempty : state.length = 0
  · refine ⟨[], by simp [search, hempty], by simp, List.Pairwise.nil, ?_⟩
    intro s
    rw [List.length_eq_zero.mp hempty]
    exact ⟨[], rfl⟩
  · have htag : ∀ p ∈ (sortByScoreDesc (state.map fun c => (c, chunkScore qe c))).take k,
        p.2 = chunkScore qe p.1 := by
      intro p hp
      have hp2 := List.mem_of_mem_take hp
      have hp3 := (mem_sortByScoreDesc p _).mp hp2
      obtain ⟨c, _, rfl⟩ := List.mem_map.mp hp3
      rfl
    refine ⟨((sortByScoreDesc (state.map fun c => (c, chunkScore qe c))).take k).map
      Prod.fst, ?_, ?_, ?_, ?_⟩
    · simp [search, hempty, hq]
    · rw [List.length_map]
      exact List.length_take_le k _
    · rw [List.pairwise_map]
      have htake := List.Pairwise.sublist (List.take_sublist k _)
        (pairwise_sortByScoreDesc (state.map fun c => (c, chunkScore qe c)))
      exact List.Pairwise.imp_of_mem
        (fun ha hb hr => by rw [← htag _ ha, ← htag _ hb]; exact hr) htake
    · intro s
      refine ⟨(((sortByScoreDesc (state.map fun c => (c, chunkScore qe c))).drop k).filter
        (fun p => decide (p.2 = s))).map Prod.fst, ?_⟩
      have h1 : state.filter (fun c => decide (chunkScore qe c = s)) =
          (((state.map fun c => (c, chunkScore qe c)).filter
            (fun p => decide (p.2 = s))).map Prod.fst) := by
        rw [List.filter_map, List.map_map]
        have hid : (Prod.fst ∘ fun c => (c, chunkScore qe c)) = id := rfl
        have hpq : ((fun p : DocumentChunk × ℝ => decide (p.2 = s)) ∘
            fun c => (c, chunkScore qe c)) =
            (fun c => decide (chunkScore qe c = s)) := rfl
        rw [hid, hpq, List.map_id]
      have h2 := filter_sortByScoreDesc s (state.map fun c => (c, chunkScore qe c))
      have h3 : (sortByScoreDesc (state.map fun c => (c, chunkScore qe c))).filter
          (fun p => decide (p.2 = s)) =
          ((sortByScoreDesc (state.map fun c => (c, chunkScore qe c))).take k).filter
            (fun p => decide (p.2 = s)) ++
          ((sortByScoreDesc (state.map fun c => (c, chunkScore qe c))).drop k).filter
            (fun p => decide (p.2 = s)) := by
        rw [← List.filter_append, List.take_append_drop]
      have h4 : (((sortByScoreDesc (state.map fun c => (c, chunkScore qe c))).take k).map
            Prod.fst).filter (fun c => decide (chunkScore qe c = s)) =
          (((sortByScoreDesc (state.map fun c => (c, chunkScore qe c))).take k).filter
            (fun p => decide (p.2 = s))).map Prod.fst := by
        rw [List.filter_map]
        congr 1
        apply List.filter_congr
        intro p hp
        simp [htag p hp]
      rw [h1, ← h2, h3, List.map_append, h4]

/-- Witness for C4: a successful search over the empty index with k = 0. -/
theorem c4_witness :
    ∃ res : List DocumentChunk,
      (search okEmbed [] exampleText 0).1 = Except.ok res ∧
      res.length ≤ 0 ∧
      res.Pairwise (fun a b => chunkScore [1] b ≤ chunkScore [1] a) ∧
      ∀ s : ℝ, ∃ t,
        ([] : List DocumentChunk).filter (fun c => decide (chunkScore [1] c = s)) =
        res.filter (fun c => decide (chunkScore [1] c = s)) ++ t :=
  c4_search_topk_sorted_stable okEmbed [] exampleText 0 [1] rfl

end VectorStore

theorem chunkLoop_unfold (text : List Char) (chunkSize overlap f i : ℕ)
    (hi : i < text.length) :
    chunkLoop text chunkSize overlap (f + 1) i =
      ((text.drop i).take chunkSize) ::
        (if text.length ≤ i + chunkSize then []
         else chunkLoop text chunkSize overlap f (i + (chunkSize - overlap))) := by
  rw [chunkLoop, if_pos hi]

theorem chunkLoop_getD (text : List Char) (chunkSize overlap : ℕ)
    (hso : overlap < chunkSize) :
    ∀ (f i : ℕ), text.length - i < f → i < text.length →
      ∀ (j : ℕ), j < (chunkLoop text chunkSize overlap f i).length →
        (chunkLoop text chunkSize overlap f i).getD j [] =
          (text.drop (i + j * (chunkSize - overlap))).take chunkSize := by
  intro f
  induction f with
  | zero => intro i hfi _ _ _; omega
  | succ f ih =>
    intro i hfi hi j hj
    by_cases hbreak : text.length ≤ i + chunkSize
    · rw [chunkLoop_unfold text chunkSize overlap f i hi, if_pos hbreak] at hj ⊢
      simp only [List.length_cons, List.length_nil] at hj
      have hj0 : j = 0 := by omega
      subst hj0
      simp
    · rw [chunkLoop_unfold text chunkSize overlap f i hi, if_neg hbreak] at hj ⊢
      cases j with
      | zero => simp
      | succ j =>
        have hij : i + (chunkSize - overlap) < text.length := by omega
        have hfi2 : text.length - (i + (chunkSize - overlap)) < f := by omega
        rw [List.getD_cons_succ]
        simp only [List.length_cons] at hj
        rw [ih (i + (chunkSize - overlap)) hfi2 hij j (by omega)]
        congr 1
        ring

theorem chunkLoop_nonfinal_lt (text : List Char) (chunkSize overlap : ℕ)
    (hso : overlap < chunkSize) :
    ∀ (f i : ℕ), text.length - i < f → i < text.length →
      ∀ (j : ℕ), j + 1 < (chunkLoop text chunkSize overlap f i).length →
        i + j * (chunkSize - overlap) + chunkSize < text.length := by
  intro f
  induction f with
  | zero => intro i hfi _ _ _; omega
  | succ f ih =>
    intro i hfi hi j hj
    by_cases hbreak : text.length ≤ i + chunkSize
    · rw [chunkLoop_unfold text chunkSize overlap f i hi, if_pos hbreak] at hj
      simp only [List.length_cons, List.length_nil] at hj
      omega
    · rw [chunkLoop_unfold text chunkSize overlap f i hi, if_neg hbreak] at hj
      simp only [List.length_cons] at hj
      cases j with
      | zero => simp only [Nat.zero_mul, Nat.add_zero]; omega
      | succ j =>
        have hij : i + (chunkSize - overlap) < text.length := by omega
        have hfi2 : text.length - (i + (chunkSize - overlap)) < f := by omega
        have := ih (i + (chunkSize - overlap)) hfi2 hij j (by omega)
        have harith : i + (chunkSize - overlap) + j * (chunkSize - overlap) =
            i + (j + 1) * (chunkSize - overlap) := by ring
        omega

theorem chunkLoop_offset_lt (text : List Char) (chunkSize overlap : ℕ)
    (hso : overlap < chunkSize) :
    ∀ (f i : ℕ), text.length - i < f → i < text.length →
      ∀ (j : ℕ), j < (chunkLoop text chunkSize overlap f i).length →
        i + j * (chunkSize - overlap) < text.length := by
  intro f
  induction f with
  | zero => intro i hfi _ _ _; omega
  | succ f ih =>
    intro i hfi hi j hj
    by_cases hbreak : text.length ≤ i + chunkSize
    · rw [chunkLoop_unfold text chunkSize overlap f i hi, if_pos hbreak] at hj
      simp only [List.length_cons, List.length_nil] at hj
      have hj0 : j = 0 := by omega
      subst hj0
      simpa using hi
    · rw [chunkLoop_unfold text chunkSize overlap f i hi, if_neg hbreak] at hj
      simp only [List.length_cons] at hj
      cases j with
      | zero => simpa using hi
      | succ j =>
        have hij : i + (chunkSize - overlap) < text.length := by omega
        have hfi2 : text.length - (i + (chunkSize - overlap)) < f := by omega
        have := ih (i + (chunkSize - overlap)) hfi2 hij j (by omega)
        have harith : i + (chunkSize - overlap) + j * (chunkSize - overlap) =
            i + (j + 1) * (chunkSize - overlap) := by ring
        omega

theorem chunkLoop_reassemble (text : List Char) (chunkSize overlap : ℕ)
    (hso : overlap < chunkSize) :
    ∀ (f i : ℕ), text.length - i < f → i < text.length →
      reassemble overlap (chunkLoop text chunkSize overlap f i) = text.drop i := by
  intro f
  induction f with
  | zero => intro i hfi _; omega
  | succ f ih =>
    intro i hfi hi
    by_cases hbreak : text.length ≤ i + chunkSize
    · rw [chunkLoop_unfold text chunkSize overlap f i hi, if_pos hbreak]
      simp only [reassemble, List.map_nil, List.flatten_nil, List.append_nil]
      apply List.take_of_length_le
      rw [List.length_drop]
      omega
    · have hij : i + (chunkSize - overlap) < text.length := by omega
      have hfi2 : text.length - (i + (chunkSize - overlap)) < f := by omega
      have hIH := ih (i + (chunkSize - overlap)) hfi2 hij
      obtain ⟨f2, rfl⟩ : ∃ f2, f = f2 + 1 := ⟨f - 1, by omega⟩
      rw [chunkLoop_unfold text chunkSize overlap f2 (i + (chunkSize - overlap)) hij]
        at hIH
      rw [chunkLoop_unfold text chunkSize overlap (f2 + 1) i hi, if_neg hbreak,
        chunkLoop_unfold text chunkSize overlap f2 (i + (chunkSize - overlap)) hij]
      simp only [reassemble, List.map_cons, List.flatten_cons] at hIH ⊢
      have hsplit := List.take_append_drop chunkSize
        (text.drop (i + (chunkSize - overlap)))
      have hJ : ((if text.length ≤ i + (chunkSize - overlap) + chunkSize then []
            else chunkLoop text chunkSize overlap f2
              (i + (chunkSize - overlap) + (chunkSize - overlap))).map
            (List.drop overlap)).flatten =
          (text.drop (i + (chunkSize - overlap))).drop chunkSize :=
        List.append_cancel_left (hIH.trans hsplit.symm)
      rw [hJ]
      have hmid : (((text.drop (i + (chunkSize - overlap))).take chunkSize).drop overlap) =
          ((text.drop i).drop chunkSize).take (chunkSize - overlap) := by
        rw [List.drop_take, List.drop_drop, List.drop_drop]
        congr 2
        omega
      have hlast : (text.drop (i + (chunkSize - overlap))).drop chunkSize =
          (((text.drop i).drop chunkSize)).drop (chunkSize - overlap) := by
        rw [List.drop_drop, List.drop_drop, List.drop_drop]
        congr 1
        omega
      rw [hmid, hlast, List.take_append_drop, List.take_append_drop]

/-- C5: the chunker contract for `chunkSize > overlap ≥ 0`. Empty input gives
no chunks. The j-th chunk is the slice of the text starting at offset
`j * (chunkSize - overlap)` of length `chunkSize` (so start offsets are the
successive multiples of the step); every chunk has length at most `chunkSize`
and every non-final chunk exactly `chunkSize`; each chunk after dropping the
step agrees with the next chunk's first `overlap` characters, and that shared
region has exactly `overlap` characters; and the first chunk followed by every
later chunk without its leading `overlap` characters reassembles the whole
text (full coverage). -/
theorem c5_chunkText_offsets_overlap_coverage (text : List Char)
    (chunkSize overlap : ℕ) (hso : overlap < chunkSize) :
    chunkText [] chunkSize overlap = [] ∧
    (∀ j, j < (chunkText text chunkSize overlap).length →
       (chunkText text chunkSize overlap).getD j [] =
         (text.drop (j * (chunkSize - overlap))).take chunkSize) ∧
    (∀ j, j < (chunkText text chunkSize overlap).length →
       ((chunkText text chunkSize overlap).getD j []).length ≤ chunkSize) ∧
    (∀ j, j + 1 < (chunkText text chunkSize overlap).length →
       ((chunkText text chunkSize overlap).getD j []).length = chunkSize) ∧
    (∀ j, j + 1 < (chunkText text chunkSize overlap).length →
       ((chunkText text chunkSize overlap).getD j []).drop (chunkSize - overlap) =
         ((chunkText text chunkSize overlap).getD (j + 1) []).take overlap ∧
       (((chunkText text chunkSize overlap).getD j []).drop
         (chunkSize - overlap)).length = overlap) ∧
    reassemble overlap (chunkText text chunkSize overlap) = text := by
  by_cases hempty : text.isEmpty
  · have htext : text = [] := by simpa [List.isEmpty_iff] using hempty
    subst htext
    refine ⟨by simp [chunkText], ?_, ?_, ?_, ?_, by simp [chunkText, reassemble]⟩ <;>
      · intro j hj
        simp [chunkText] at hj
  · have htext : text ≠ [] := by simpa [List.isEmpty_iff] using hempty
    have hlen : 0 < text.length := List.length_pos.mpr htext
    have hful : text.length - 0 < text.length + 1 := by omega
    have hct : chunkText text chunkSize overlap =
        chunkLoop text chunkSize overlap (text.length + 1) 0 := by
      simp [chunkText, hempty]
    have hget : ∀ j, j < (chunkText text chunkSize overlap).length →
        (chunkText text chunkSize overlap).getD j [] =
          (text.drop (j * (chunkSize - overlap))).take chunkSize := by
      intro j hj
      rw [hct] at hj ⊢
      have := chunkLoop_getD text chunkSize overlap hso (text.length + 1) 0 hful hlen j hj
      simpa using this
    have hfull : ∀ j, j + 1 < (chunkText text chunkSize overlap).length →
        j * (chunkSize - overlap) + chunkSize < text.length := by
      intro j hj
      rw [hct] at hj
      have := chunkLoop_nonfinal_lt text chunkSize overlap hso (text.length + 1) 0
        hful hlen j hj
      simpa using this
    have hfulllen : ∀ j, j + 1 < (chunkText text chunkSize overlap).length →
        ((chunkText text chunkSize overlap).getD j []).length = chunkSize := by
      intro j hj
      rw [hget j (by omega), List.length_take, List.length_drop]
      have := hfull j hj
      omega
    refine ⟨by simp [chunkText], hget, ?_, hfulllen, ?_, ?_⟩
    · intro j hj
      rw [hget j hj, List.length_take]
      omega
    · intro j hj
      constructor
      · rw [hget j (by omega), hget (j + 1) hj]
        rw [List.drop_take, List.drop_drop, List.take_take]
        have e1 : chunkSize - (chunkSize - overlap) = overlap :=
          Nat.sub_sub_self (le_of_lt hso)
        have e2 : j * (chunkSize - overlap) + (chunkSize - overlap) =
            (j + 1) * (chunkSize - overlap) := by ring
        rw [e1, e2]
        congr 1
        omega
      · rw [List.length_drop, hfulllen j hj]
        omega
    · rw [hct]
      have := chunkLoop_reassemble text chunkSize overlap hso (text.length + 1) 0
        hful hlen
      simpa using this

/-- Witness for C5: the chunker at text "abcdef", size 3, overlap 1. -/
theorem c5_witness :
    chunkText [] 3 1 = [] ∧
    (∀ j, j < (chunkText exampleText.data 3 1).length →
       (chunkText exampleText.data 3 1).getD j [] =
         (exampleText.data.drop (j * 2)).take 3) ∧
    (∀ j, j < (chunkText exampleText.data 3 1).length →
       ((chunkText exampleText.data 3 1).getD j []).length ≤ 3) ∧
    (∀ j, j + 1 < (chunkText exampleText.data 3 1).length →
       ((chunkText exampleText.data 3 1).getD j []).length = 3) ∧
    (∀ j, j + 1 < (chunkText exampleText.data 3 1).length →
       ((chunkText exampleText.data 3 1).getD j []).drop 2 =
         ((chunkText exampleText.data 3 1).getD (j + 1) []).take 1 ∧
       (((chunkText exampleText.data 3 1).getD j []).drop 2).length = 1) ∧
    reassemble 1 (chunkText exampleText.data 3 1) = exampleText.data :=
  c5_chunkText_offsets_overlap_coverage exampleText.data 3 1 (by decide)
